import Mathlib

/-!
Verification of the order-book reconstruction program (src/order_book.rs,
src/connection/mod.rs, src/connection/binance.rs) against its specification.

Modelling conventions:
* `f32` values are embedded as `F32`: a finite value is a rational (`F32.val`),
  and IEEE NaN is `F32.nan`.  Finite `f32` values are exactly dyadic rationals,
  and the program only ever compares prices and quantities (no arithmetic), so
  the ordering and `==` behaviour of the embedding agrees with `f32` on the
  embedded values (infinities are omitted; they play no role in the claims).
* Rust's `BTreeSet<T>` with the program's `Ord` instance is modelled as a list
  kept strictly sorted by the comparator.  `insert` is a no-op when an element
  comparing `Equal` is already present (the element is NOT replaced), `remove`
  deletes the element comparing `Equal`, and `first` is the head — exactly the
  contract of `BTreeSet::insert` / `remove` / `first`.
* The websocket/JSON layer is out of scope: deltas and snapshots carry already
  parsed `(price, quantity)` levels, and stream items are `Except Err _`
  values mirroring `Result<_, Error>` items of the Rust stream.
-/

/-- Model of `f32`: `val q` is a finite value embedded as a rational, `nan` is
IEEE NaN. -/
inductive F32 where
  | val (q : ℚ)
  | nan
deriving DecidableEq

/-- IEEE `<` on `f32`: false whenever either operand is NaN. -/
def F32.flt : F32 → F32 → Bool
  | .val a, .val b => decide (a < b)
  | _, _ => false

/-- IEEE `>` on `f32`: false whenever either operand is NaN. -/
def F32.fgt : F32 → F32 → Bool
  | .val a, .val b => decide (b < a)
  | _, _ => false

/-- IEEE `==` on `f32`: false whenever either operand is NaN. -/
def F32.feq : F32 → F32 → Bool
  | .val a, .val b => decide (a = b)
  | _, _ => false

/-- Whether an `F32` is a (finite) number, i.e. not NaN. -/
def F32.isNum : F32 → Bool
  | .val _ => true
  | .nan => false

/-- The rational represented by a finite `F32` (junk value `0` on NaN). -/
def F32.toRat : F32 → ℚ
  | .val q => q
  | .nan => 0

/-- `OrderDetails` (src/connection/mod.rs): a price level. -/
structure OrderDetails where
  price : F32
  quantity : F32
deriving DecidableEq

/-- `impl Ord for OrderDetails` (src/connection/mod.rs lines 61-71): compares
by price only, via IEEE `<` and `>`. -/
def OrderDetails.cmp (a b : OrderDetails) : Ordering :=
  if a.price.flt b.price then .lt
  else if a.price.fgt b.price then .gt
  else .eq

/-- `impl PartialEq for OrderDetails` (src/connection/mod.rs lines 53-57):
IEEE `==` on the price only. -/
def OrderDetails.peq (a b : OrderDetails) : Bool :=
  a.price.feq b.price

/-- The comparator of `Reverse<OrderDetails>` used for the bid side:
`Reverse(a).cmp(Reverse(b)) = b.cmp(a)`. -/
def revCmp (a b : OrderDetails) : Ordering :=
  OrderDetails.cmp b a

/-- `Order` (src/connection/mod.rs): a side-tagged price level. -/
inductive Order where
  | bid (details : OrderDetails)
  | ask (details : OrderDetails)
deriving DecidableEq

/-- `BTreeSet::insert` on a list sorted strictly by `c`: walk to the insertion
point; when an element comparing `Equal` is present the set is left unchanged
(the stored element is NOT replaced — Rust `BTreeSet::insert` semantics). -/
def btInsert (c : OrderDetails → OrderDetails → Ordering) (x : OrderDetails) :
    List OrderDetails → List OrderDetails
  | [] => [x]
  | y :: ys =>
    match c x y with
    | .lt => x :: y :: ys
    | .eq => y :: ys
    | .gt => y :: btInsert c x ys

/-- `BTreeSet::remove` on a list sorted strictly by `c`: delete the element
comparing `Equal` to `x`, if any. -/
def btRemove (c : OrderDetails → OrderDetails → Ordering) (x : OrderDetails) :
    List OrderDetails → List OrderDetails
  | [] => []
  | y :: ys =>
    match c x y with
    | .lt => y :: ys
    | .eq => ys
    | .gt => y :: btRemove c x ys

/-- `Book` (src/order_book.rs lines 17-23): `bids : BTreeSet<Reverse<OrderDetails>>`
(sorted descending by price), `asks : BTreeSet<OrderDetails>` (ascending). -/
structure Book where
  bids : List OrderDetails
  asks : List OrderDetails
deriving DecidableEq

/-- The freshly created book of `OrderBook::create`. -/
def emptyBook : Book := ⟨[], []⟩

/-- The update step of `order_book_process` (src/order_book.rs lines 58-71):
quantity `== 0.0` removes the level on the order's side, anything else inserts
it into the side's `BTreeSet`. -/
def applyOrder (bk : Book) (o : Order) : Book :=
  match o with
  | .bid d =>
    if d.quantity.feq (F32.val 0) then { bk with bids := btRemove revCmp d bk.bids }
    else { bk with bids := btInsert revCmp d bk.bids }
  | .ask d =>
    if d.quantity.feq (F32.val 0) then { bk with asks := btRemove OrderDetails.cmp d bk.asks }
    else { bk with asks := btInsert OrderDetails.cmp d bk.asks }

/-- `OrderBook::top_bid_ask` (src/order_book.rs lines 41-47): `first()` of each
side (the minimum under the side's ordering), mapped to its price. -/
def topBidAsk (bk : Book) : Option F32 × Option F32 :=
  (bk.bids.head?.map (fun o => o.price), bk.asks.head?.map (fun o => o.price))

/-- Folding a sequence of orders into a fresh book — the effect of
`order_book_process` consuming a stream of `Ok` items. -/
def runOps (ops : List Order) : Book :=
  ops.foldl applyOrder emptyBook

/-- The errors of `connection::Error` that the modelled code paths produce. -/
inductive Err where
  | connectionClosed
  | badUpdateBounds (bound first last : ℕ)
deriving DecidableEq

/-- The inner `while let Some(result) = stream.next()` loop of
`order_book_process` (src/order_book.rs lines 52-87) over the (finite) list of
items the stream yields before ending: `Ok` orders are applied, an `Err` item
clears both sides of the book, and the loop then CONTINUES with the same
stream.  When the list is exhausted (end of stream) the book is returned
as-is — the loop body performs no clearing there. -/
def processItems (bk : Book) : List (Except Err Order) → Book
  | [] => bk
  | .ok o :: rest => processItems (applyOrder bk o) rest
  | .error _ :: rest => processItems ⟨[], []⟩ rest

/-- One iteration of the outer `loop` of `order_book_process`: if
`connection.stream()` returns `Err`, nothing touches the book; otherwise the
items of the returned stream are consumed. -/
def processSession (bk : Book) : Except Err (List (Except Err Order)) → Book
  | .error _ => bk
  | .ok items => processItems bk items

/-- `Delta` (src/connection/binance.rs): an incremental depth update, with the
`(String, String)` levels modelled post-parse as `(price, quantity)` pairs. -/
structure Delta where
  event_time : ℕ
  first_update : ℕ
  last_update : ℕ
  b : List (F32 × F32)
  a : List (F32 × F32)
deriving DecidableEq

/-- `Snapshot` (src/connection/binance.rs), levels modelled post-parse. -/
structure Snapshot where
  last_update_id : ℕ
  bids : List (F32 × F32)
  asks : List (F32 × F32)
deriving DecidableEq

/-- `TryFrom<Delta> for Vec<Order>`: the asks of the delta, then its bids. -/
def Delta.orders (d : Delta) : List Order :=
  d.a.map (fun l => Order.ask ⟨l.1, l.2⟩) ++ d.b.map (fun l => Order.bid ⟨l.1, l.2⟩)

/-- `TryFrom<Snapshot> for Vec<Order>`: the asks of the snapshot, then its bids. -/
def Snapshot.orders (s : Snapshot) : List Order :=
  s.asks.map (fun l => Order.ask ⟨l.1, l.2⟩) ++ s.bids.map (fun l => Order.bid ⟨l.1, l.2⟩)

/-- The `while let Some(delta) = delta_buffer.front()` loop of
`BinanceConnection::stream` (src/connection/binance.rs lines 66-74): pop
buffered deltas from the front while `last_update <= last_updated`, stopping at
the first delta that is not subsumed by the snapshot. -/
def dropStale (lastUpdated : ℕ) : List Delta → List Delta
  | [] => []
  | d :: ds => if d.last_update ≤ lastUpdated then dropStale lastUpdated ds else d :: ds

/-- The `map` + `try_flatten` combinator applied to the chained delta stream
(src/connection/binance.rs lines 96-111): an `Ok` delta expands to its orders,
an `Err` item passes through and the stream continues. -/
def tryFlattenOrders : List (Except Err Delta) → List (Except Err Order)
  | [] => []
  | .ok d :: rest => (d.orders.map Except.ok) ++ tryFlattenOrders rest
  | .error e :: rest => .error e :: tryFlattenOrders rest

/-- The reconciliation core of `BinanceConnection::stream`
(src/connection/binance.rs lines 65-114), starting from the point where the
snapshot request has succeeded: `snapshot` is the fetched snapshot, `buffer`
the deltas buffered (in arrival order) during the `select!` race, and `live`
the remaining items of the websocket stream.  Stale buffered deltas are
dropped, the oldest survivor's update-id bounds are checked (a violation
returns the `Err` that `stream()` itself returns, so `order_book_process`
never sees any item), and otherwise the returned stream is the snapshot's
orders chained with the flattened buffered-then-live deltas. -/
def streamAfterSnapshot (snapshot : Snapshot) (buffer : List Delta)
    (live : List (Except Err Delta)) : Except Err (List (Except Err Order)) :=
  match dropStale snapshot.last_update_id buffer with
  | delta :: rest =>
    if delta.first_update > snapshot.last_update_id + 1
        || delta.last_update < snapshot.last_update_id + 1 then
      Except.error (Err.badUpdateBounds (snapshot.last_update_id + 1)
        delta.first_update delta.last_update)
    else
      Except.ok ((snapshot.orders.map Except.ok) ++
        tryFlattenOrders (((delta :: rest).map Except.ok) ++ live))
  | [] =>
    Except.ok ((snapshot.orders.map Except.ok) ++ tryFlattenOrders live)

/-- Concatenated orders of a list of deltas, in list order — the reference
order against which claim C7 compares the produced stream. -/
def deltasOrders : List Delta → List Order
  | [] => []
  | d :: ds => d.orders ++ deltasOrders ds

/-- The payload of an `Order`, either side. -/
def Order.details : Order → OrderDetails
  | .bid d => d
  | .ask d => d

/-- A well-formed feed level: numeric (non-NaN) price, numeric nonnegative
quantity — the domain of the spec's "upserts and removals". -/
abbrev goodOrderDetails (d : OrderDetails) : Prop :=
  d.price.isNum = true ∧ d.quantity.isNum = true ∧ 0 ≤ d.quantity.toRat

/-- A well-formed incoming order. -/
abbrev goodOrder (o : Order) : Prop := goodOrderDetails o.details

/-- A stored ledger entry respecting the spec's invariants: numeric price and
numeric strictly positive quantity. -/
abbrev goodEntry (d : OrderDetails) : Prop :=
  d.price.isNum = true ∧ d.quantity.isNum = true ∧ 0 < d.quantity.toRat

/-- Well-formedness of the book: each side strictly sorted under its own
comparator (the `BTreeSet` representation invariant) and every stored entry
good. -/
def BookWF (bk : Book) : Prop :=
  bk.bids.Pairwise (fun a b => revCmp a b = .lt)
  ∧ bk.asks.Pairwise (fun a b => OrderDetails.cmp a b = .lt)
  ∧ (∀ y ∈ bk.bids, goodEntry y)
  ∧ (∀ y ∈ bk.asks, goodEntry y)

/-- `btRemove` leaves the list unchanged when no element compares `Equal` to
the probe (Rust: `BTreeSet::remove` of an absent key). -/
lemma btRemove_not_found (c : OrderDetails → OrderDetails → Ordering)
    (x : OrderDetails) (l : List OrderDetails)
    (h : ∀ y ∈ l, c x y ≠ .eq) : btRemove c x l = l := by
  induction l with
  | nil => rfl
  | cons y ys ih =>
    have hy := h y (List.mem_cons_self y ys)
    cases hc : c x y with
    | lt => simp [btRemove, hc]
    | eq => exact absurd hc hy
    | gt =>
      simp only [btRemove, hc]
      rw [ih (fun z hz => h z (List.mem_cons_of_mem y hz))]

/-- C9: for every ledger side and every price `p` with no stored entry at `p`
(no element of the side's `BTreeSet` compares `Equal` to `p` under the side's
ordering), applying a quantity-0 update for `p` leaves the book unchanged:
removal of an absent price is the identity. -/
theorem c9_remove_absent (bk : Book) (p : F32)
    (hb : ∀ y ∈ bk.bids, revCmp ⟨p, F32.val 0⟩ y ≠ .eq)
    (ha : ∀ y ∈ bk.asks, OrderDetails.cmp ⟨p, F32.val 0⟩ y ≠ .eq) :
    applyOrder bk (Order.bid ⟨p, F32.val 0⟩) = bk
    ∧ applyOrder bk (Order.ask ⟨p, F32.val 0⟩) = bk := by
  have h0 : (F32.val 0).feq (F32.val 0) = true := by decide
  constructor
  · show (if (F32.val 0).feq (F32.val 0) then
        { bk with bids := btRemove revCmp ⟨p, F32.val 0⟩ bk.bids }
      else { bk with bids := btInsert revCmp ⟨p, F32.val 0⟩ bk.bids }) = bk
    rw [if_pos h0, btRemove_not_found _ _ _ hb]
  · show (if (F32.val 0).feq (F32.val 0) then
        { bk with asks := btRemove OrderDetails.cmp ⟨p, F32.val 0⟩ bk.asks }
      else { bk with asks := btInsert OrderDetails.cmp ⟨p, F32.val 0⟩ bk.asks }) = bk
    rw [if_pos h0, btRemove_not_found _ _ _ ha]

/-- Witness for C9: removing absent price 7 from a book holding only the bid
(10, 5) leaves the book unchanged. -/
theorem c9_remove_absent_witness :
    applyOrder ⟨[⟨F32.val 10, F32.val 5⟩], []⟩ (Order.bid ⟨F32.val 7, F32.val 0⟩)
      = (⟨[⟨F32.val 10, F32.val 5⟩], []⟩ : Book) :=
  (c9_remove_absent ⟨[⟨F32.val 10, F32.val 5⟩], []⟩ (F32.val 7)
    (by decide) (by decide)).1

/-- C10: `OrderDetails::cmp` returns `Equal` exactly when neither
`price < other.price` nor `price > other.price` holds; quantity never affects
the comparison; an `OrderDetails` with NaN price compares `Equal` to every
other `OrderDetails` (in both argument orders); and the comparator is not a
total order: `Equal` is not even transitive, so NaN breaks antisymmetry of the
induced equivalence. -/
theorem c10_cmp_spec :
    (∀ a b : OrderDetails,
        a.cmp b = .eq ↔ (a.price.flt b.price = false ∧ a.price.fgt b.price = false))
    ∧ (∀ p p' q1 q2 q1' q2' : F32,
        OrderDetails.cmp ⟨p, q1⟩ ⟨p', q2⟩ = OrderDetails.cmp ⟨p, q1'⟩ ⟨p', q2'⟩)
    ∧ (∀ b : OrderDetails, ∀ q : F32,
        OrderDetails.cmp ⟨F32.nan, q⟩ b = .eq ∧ OrderDetails.cmp b ⟨F32.nan, q⟩ = .eq)
    ∧ ¬ (∀ a b c : OrderDetails, a.cmp b = .eq → b.cmp c = .eq → a.cmp c = .eq) := by
  refine ⟨?_, ?_, ?_, ?_⟩
  · intro a b
    unfold OrderDetails.cmp
    rcases h1 : a.price.flt b.price <;> rcases h2 : a.price.fgt b.price <;> simp [h1, h2]
  · intro p p' q1 q2 q1' q2'
    rfl
  · intro b q
    obtain ⟨bp, bq⟩ := b
    cases bp <;> exact ⟨rfl, rfl⟩
  · intro h
    have h2 := h ⟨F32.val 0, F32.val 0⟩ ⟨F32.nan, F32.val 0⟩ ⟨F32.val 1, F32.val 0⟩
      (by decide) (by decide)
    exact absurd h2 (by decide)

/-- Witness for C10: an order with NaN price compares `Equal` to one priced 1. -/
theorem c10_cmp_spec_witness :
    OrderDetails.cmp ⟨F32.nan, F32.val 0⟩ ⟨F32.val 1, F32.val 0⟩ = .eq :=
  (c10_cmp_spec.2.2.1 ⟨F32.val 1, F32.val 0⟩ (F32.val 0)).1

/-- C1, evaluated at the failing input: on each side, `upsert(10, 5)` followed
by `upsert(10, 7)` leaves the stored quantity at 5 — `BTreeSet::insert` is a
no-op when an element with an equal price is already present, so the second
upsert does NOT replace the stored quantity as the claim requires. -/
theorem c1_upsert_no_replace :
    (runOps [Order.bid ⟨F32.val 10, F32.val 5⟩, Order.bid ⟨F32.val 10, F32.val 7⟩]).bids
        = [⟨F32.val 10, F32.val 5⟩]
    ∧ (runOps [Order.ask ⟨F32.val 10, F32.val 5⟩, Order.ask ⟨F32.val 10, F32.val 7⟩]).asks
        = [⟨F32.val 10, F32.val 5⟩] := by
  exact ⟨by decide, by decide⟩

/-- C4, evaluated at the failing input: one `stream()` session whose items are
the snapshot order Bid(10, 5), then a stream error, then the delta order
Bid(9, 2).  `order_book_process` clears the book at the error but keeps
consuming the same stream, so the post-failure delta is applied with no fresh
snapshot and a subsequent query returns `Some 9` instead of `(None, None)`. -/
theorem c4_post_failure_price_served :
    topBidAsk (processSession emptyBook (streamAfterSnapshot
        ⟨1, [(F32.val 10, F32.val 5)], []⟩ []
        [Except.error Err.connectionClosed,
         Except.ok ⟨0, 2, 2, [(F32.val 9, F32.val 2)], []⟩]))
      = (some (F32.val 9), none) := by
  decide

/-- C5, evaluated at the failing input: a session applies the snapshot order
Bid(10, 5) and then its delta stream ends.  The read loop of
`order_book_process` exits without clearing the ledgers (clearing only happens
on `Err` items), so the stale `Some 10` keeps being served while the next
session connects — the ledgers are not cleared on end-of-stream. -/
theorem c5_end_of_stream_leaves_book :
    topBidAsk (processSession emptyBook (streamAfterSnapshot
        ⟨1, [(F32.val 10, F32.val 5)], []⟩ [] []))
      = (some (F32.val 10), none) := by
  decide

/-- C8 counterexample: the incoming bid with quantity -1 is stored as a live
entry — it is neither treated as a removal (the side would then be empty) nor
rejected, and the stored entry violates the no-quantity-≤-0 invariant. -/
theorem c8_negative_quantity_cex :
    (applyOrder emptyBook (Order.bid ⟨F32.val 10, F32.val (-1)⟩)).bids
        = [⟨F32.val 10, F32.val (-1)⟩]
    ∧ ∃ y ∈ (applyOrder emptyBook (Order.bid ⟨F32.val 10, F32.val (-1)⟩)).bids,
        y.quantity.toRat < 0 :=
  ⟨by decide, ⟨F32.val 10, F32.val (-1)⟩, by decide, by decide⟩

/-- C8 as amended: an incoming order with negative quantity is stored as a live
entry exactly like a positive-quantity order (only quantity `== 0.0` triggers
removal); the code neither removes nor rejects it, so the ledger invariant
that no entry has quantity ≤ 0 does not hold. -/
theorem c8_negative_quantity_stored (p q : ℚ) (hq : q < 0) :
    (applyOrder emptyBook (Order.bid ⟨F32.val p, F32.val q⟩)).bids
        = [⟨F32.val p, F32.val q⟩]
    ∧ (applyOrder emptyBook (Order.ask ⟨F32.val p, F32.val q⟩)).asks
        = [⟨F32.val p, F32.val q⟩] := by
  have hne : (F32.val q).feq (F32.val 0) = false := by
    simpa [F32.feq] using hq.ne
  constructor <;> simp [applyOrder, hne, emptyBook, btInsert]

/-- Witness for C8 (amended): quantity -1 at price 10 is stored live. -/
theorem c8_negative_quantity_stored_witness :
    (applyOrder emptyBook (Order.bid ⟨F32.val 10, F32.val (-1)⟩)).bids
        = [⟨F32.val 10, F32.val (-1)⟩] :=
  (c8_negative_quantity_stored 10 (-1) (by norm_num)).1

/-- C3: during reconciliation, if after discarding stale buffered deltas the
oldest remaining buffered delta `d` does not satisfy
`d.first_update ≤ L+1 ≤ d.last_update` (with `L` the snapshot's
`last_update_id`), then `stream()` fails with the bad-bounds error, so
`order_book_process` receives no item: no delta is applied and the book is
left exactly as it was (nothing marks it synchronized). -/
theorem c3_gap_reject (s : Snapshot) (buffer : List Delta)
    (live : List (Except Err Delta)) (d : Delta)
    (hd : (dropStale s.last_update_id buffer).head? = some d)
    (hgap : s.last_update_id + 1 < d.first_update
        ∨ d.last_update < s.last_update_id + 1) :
    streamAfterSnapshot s buffer live
        = Except.error (Err.badUpdateBounds (s.last_update_id + 1)
            d.first_update d.last_update)
    ∧ ∀ bk : Book, processSession bk (streamAfterSnapshot s buffer live) = bk := by
  have hmain : streamAfterSnapshot s buffer live
      = Except.error (Err.badUpdateBounds (s.last_update_id + 1)
          d.first_update d.last_update) := by
    unfold streamAfterSnapshot
    rcases hds : dropStale s.last_update_id buffer with _ | ⟨d', rest⟩
    · rw [hds] at hd
      cases hd
    · rw [hds] at hd
      have hdd : d' = d := by simpa using hd
      subst hdd
      have hcond : (decide (d'.first_update > s.last_update_id + 1)
          || decide (d'.last_update < s.last_update_id + 1)) = true := by
        rcases hgap with h | h <;> simp [h]
      simp [hcond]
  exact ⟨hmain, fun bk => by rw [hmain]; rfl⟩

/-- Witness for C3: snapshot `L = 100` with a buffered delta covering
`[105, 106]` (a gap, as in the spec's test scenario) makes `stream()` return
the bad-bounds error. -/
theorem c3_gap_reject_witness :
    streamAfterSnapshot ⟨100, [], []⟩ [⟨0, 105, 106, [], []⟩] []
      = Except.error (Err.badUpdateBounds 101 105 106) :=
  (c3_gap_reject ⟨100, [], []⟩ [⟨0, 105, 106, [], []⟩] [] ⟨0, 105, 106, [], []⟩
    (by decide) (Or.inl (by decide))).1

/-- `dropStale` is the identity when the head (if any) is newer than the
snapshot. -/
lemma dropStale_head_keep (lastUpdated : ℕ) (l : List Delta)
    (h : ∀ d : Delta, l.head? = some d → lastUpdated < d.last_update) :
    dropStale lastUpdated l = l := by
  cases l with
  | nil => rfl
  | cons d ds =>
    have hd := h d rfl
    simp [dropStale, Nat.not_le.mpr hd]

/-- Under nondecreasing `last_update` ids (the transport's order), the
front-popping loop of `BinanceConnection::stream` discards exactly the deltas
subsumed by the snapshot. -/
lemma dropStale_eq_filter (lastUpdated : ℕ) (l : List Delta)
    (hmono : l.Pairwise (fun d1 d2 => d1.last_update ≤ d2.last_update)) :
    dropStale lastUpdated l = l.filter (fun d => lastUpdated < d.last_update) := by
  induction l with
  | nil => rfl
  | cons d ds ih =>
    rcases List.pairwise_cons.mp hmono with ⟨hall, hds⟩
    by_cases hd : d.last_update ≤ lastUpdated
    · have : ¬ (lastUpdated < d.last_update) := Nat.not_lt.mpr hd
      simp [dropStale, hd, List.filter_cons, this, ih hds]
    · have hLd : lastUpdated < d.last_update := Nat.not_le.mp hd
      have hrest : ds.filter (fun d2 => lastUpdated < d2.last_update) = ds := by
        apply List.filter_eq_self.mpr
        intro a ha
        exact decide_eq_true (lt_of_lt_of_le hLd (hall a ha))
      simp [dropStale, hd, List.filter_cons, hLd, hrest]

/-- C6: with nondecreasing update ids across the buffered deltas (the feed's
transport order), every buffered delta with `last_update ≤ L` is discarded by
reconciliation: the produced stream — and hence the ledger state after any
book processes it — is identical to the one produced from the snapshot and
the non-stale buffered deltas alone. -/
theorem c6_stale_discard (s : Snapshot) (buffer : List Delta)
    (live : List (Except Err Delta))
    (hmono : buffer.Pairwise (fun d1 d2 => d1.last_update ≤ d2.last_update)) :
    streamAfterSnapshot s buffer live
        = streamAfterSnapshot s
            (buffer.filter (fun d => s.last_update_id < d.last_update)) live
    ∧ ∀ bk : Book,
        processSession bk (streamAfterSnapshot s buffer live)
          = processSession bk (streamAfterSnapshot s
              (buffer.filter (fun d => s.last_update_id < d.last_update)) live) := by
  have hfun : dropStale s.last_update_id buffer
      = dropStale s.last_update_id
          (buffer.filter (fun d => s.last_update_id < d.last_update)) := by
    rw [dropStale_eq_filter _ _ hmono, dropStale_head_keep]
    intro d hd
    have hdm : d ∈ buffer.filter (fun d2 => s.last_update_id < d2.last_update) :=
      List.mem_of_mem_head? (Option.mem_def.mpr hd)
    exact of_decide_eq_true (List.mem_filter.mp hdm).2
  have hmain : streamAfterSnapshot s buffer live
      = streamAfterSnapshot s
          (buffer.filter (fun d => s.last_update_id < d.last_update)) live := by
    unfold streamAfterSnapshot
    rw [hfun]
  exact ⟨hmain, fun bk => by rw [hmain]⟩

/-- Witness for C6: a buffer holding one stale delta (ids up to 100 = L) and
one fresh delta; the produced stream equals the one from the filtered buffer. -/
theorem c6_stale_discard_witness :
    streamAfterSnapshot ⟨100, [], []⟩
        [⟨0, 99, 100, [], []⟩, ⟨0, 101, 102, [], []⟩] []
      = streamAfterSnapshot ⟨100, [], []⟩
          (List.filter (fun d => decide ((100 : ℕ) < d.last_update))
            [⟨0, 99, 100, [], []⟩, ⟨0, 101, 102, [], []⟩]) [] :=
  (c6_stale_discard ⟨100, [], []⟩
    [⟨0, 99, 100, [], []⟩, ⟨0, 101, 102, [], []⟩] [] (by decide)).1

/-- `tryFlattenOrders` distributes over concatenation of the underlying
streams (`chain` of two streams flattens to the two flattened parts). -/
lemma tryFlattenOrders_append (xs ys : List (Except Err Delta)) :
    tryFlattenOrders (xs ++ ys) = tryFlattenOrders xs ++ tryFlattenOrders ys := by
  induction xs with
  | nil => rfl
  | cons x rest ih => cases x <;> simp [tryFlattenOrders, ih]

/-- On an all-`Ok` delta stream, `map` + `try_flatten` yields exactly the
deltas' orders, concatenated in stream order and wrapped in `Ok`. -/
lemma tryFlattenOrders_ok (ds : List Delta) :
    tryFlattenOrders (ds.map Except.ok) = (deltasOrders ds).map Except.ok := by
  induction ds with
  | nil => rfl
  | cons d rest ih => simp [tryFlattenOrders, deltasOrders, ih]

/-- The deltas retained by the front-popping loop are a sublist of the buffer
(in particular they keep their original arrival order). -/
lemma dropStale_sublist (lastUpdated : ℕ) (l : List Delta) :
    (dropStale lastUpdated l).Sublist l := by
  induction l with
  | nil => exact List.Sublist.refl _
  | cons d ds ih =>
    by_cases h : d.last_update ≤ lastUpdated
    · simp only [dropStale, if_pos h]
      exact List.Sublist.cons d ih
    · simp only [dropStale, if_neg h]
      exact List.Sublist.refl _

/-- C7: whenever reconciliation succeeds, the produced item stream is exactly
the snapshot's levels first, then the retained buffered deltas' levels in
their original arrival order, then the live deltas' levels in arrival order —
no reordering or batching across deltas (and the retained buffered deltas are
a sublist of the buffer, i.e. keep arrival order). -/
theorem c7_ordering (s : Snapshot) (buffer : List Delta) (live : List Delta)
    (items : List (Except Err Order))
    (h : streamAfterSnapshot s buffer (live.map Except.ok) = Except.ok items) :
    items = (s.orders ++ deltasOrders (dropStale s.last_update_id buffer)
              ++ deltasOrders live).map Except.ok
    ∧ (dropStale s.last_update_id buffer).Sublist buffer := by
  refine ⟨?_, dropStale_sublist _ _⟩
  unfold streamAfterSnapshot at h
  rcases hds : dropStale s.last_update_id buffer with _ | ⟨d, rest⟩
  · simp only [hds] at h
    have h2 := Except.ok.inj h
    rw [← h2, tryFlattenOrders_ok]
    simp [deltasOrders]
  · simp only [hds] at h
    rcases hc : (decide (d.first_update > s.last_update_id + 1)
        || decide (d.last_update < s.last_update_id + 1)) with _ | _
    · rw [if_neg (by simp [hc])] at h
      have h2 := Except.ok.inj h
      rw [← h2, tryFlattenOrders_append, tryFlattenOrders_ok, tryFlattenOrders_ok]
      simp
    · rw [if_pos hc] at h
      cases h

/-- Witness for C7, on the spec's end-to-end scenario (integer quantities):
snapshot `L = 100` with bid (10, 5) and ask (11, 3); buffered delta
`[98, 101]` removing bid 10; live delta `[102, 102]` with bid (9, 2) and ask
(11, 0).  The produced items are the snapshot's levels, then the buffered
delta's, then the live delta's. -/
theorem c7_ordering_witness :
    ([Except.ok (Order.ask ⟨F32.val 11, F32.val 3⟩),
      Except.ok (Order.bid ⟨F32.val 10, F32.val 5⟩),
      Except.ok (Order.bid ⟨F32.val 10, F32.val 0⟩),
      Except.ok (Order.ask ⟨F32.val 11, F32.val 0⟩),
      Except.ok (Order.bid ⟨F32.val 9, F32.val 2⟩)] : List (Except Err Order))
      = (Snapshot.orders ⟨100, [(F32.val 10, F32.val 5)], [(F32.val 11, F32.val 3)]⟩
          ++ deltasOrders (dropStale 100 [⟨0, 98, 101, [(F32.val 10, F32.val 0)], []⟩])
          ++ deltasOrders
              [⟨0, 102, 102, [(F32.val 9, F32.val 2)], [(F32.val 11, F32.val 0)]⟩]).map
          Except.ok :=
  (c7_ordering ⟨100, [(F32.val 10, F32.val 5)], [(F32.val 11, F32.val 3)]⟩
    [⟨0, 98, 101, [(F32.val 10, F32.val 0)], []⟩]
    [⟨0, 102, 102, [(F32.val 9, F32.val 2)], [(F32.val 11, F32.val 0)]⟩]
    _ rfl).1

/-- Every element of `btInsert c x l` is `x` or an element of `l`. -/
lemma btInsert_mem (c : OrderDetails → OrderDetails → Ordering)
    (x : OrderDetails) (l : List OrderDetails) :
    ∀ z ∈ btInsert c x l, z = x ∨ z ∈ l := by
  induction l with
  | nil =>
    intro z hz
    simp only [btInsert, List.mem_singleton] at hz
    exact Or.inl hz
  | cons y ys ih =>
    intro z hz
    cases hc : c x y with
    | lt =>
      simp only [btInsert, hc, List.mem_cons] at hz
      simp only [List.mem_cons]
      tauto
    | eq =>
      simp only [btInsert, hc] at hz
      exact Or.inr hz
    | gt =>
      simp only [btInsert, hc, List.mem_cons] at hz
      simp only [List.mem_cons]
      rcases hz with h | h
      · tauto
      · rcases ih z h with h' | h' <;> tauto

/-- `btRemove` returns a sublist (Rust: `BTreeSet::remove` removes at most one
element and preserves order). -/
lemma btRemove_sublist (c : OrderDetails → OrderDetails → Ordering)
    (x : OrderDetails) (l : List OrderDetails) : (btRemove c x l).Sublist l := by
  induction l with
  | nil => exact List.Sublist.refl _
  | cons y ys ih =>
    cases hc : c x y with
    | lt =>
      simp only [btRemove, hc]
      exact List.Sublist.refl _
    | eq =>
      simp only [btRemove, hc]
      exact List.Sublist.cons y (List.Sublist.refl ys)
    | gt =>
      simp only [btRemove, hc]
      exact List.Sublist.cons₂ y ih

/-- On numeric prices, `OrderDetails::cmp` returns `Less` exactly for the
smaller price. -/
lemma cmp_lt_iff (a b : OrderDetails) (ha : a.price.isNum = true)
    (hb : b.price.isNum = true) :
    OrderDetails.cmp a b = .lt ↔ a.price.toRat < b.price.toRat := by
  obtain ⟨pa, qa⟩ := a
  obtain ⟨pb, qb⟩ := b
  cases pa with
  | val x =>
    cases pb with
    | val y =>
      by_cases hxy : x < y
      · simp [OrderDetails.cmp, F32.flt, F32.fgt, F32.toRat, hxy]
      · by_cases hyx : y < x
        · simp [OrderDetails.cmp, F32.flt, F32.fgt, F32.toRat, hxy, hyx]
        · simp [OrderDetails.cmp, F32.flt, F32.fgt, F32.toRat, hxy, hyx]
    | nan => simp [F32.isNum] at hb
  | nan => simp [F32.isNum] at ha

/-- On numeric prices, `OrderDetails::cmp` returns `Greater` exactly for the
larger price. -/
lemma cmp_gt_iff (a b : OrderDetails) (ha : a.price.isNum = true)
    (hb : b.price.isNum = true) :
    OrderDetails.cmp a b = .gt ↔ b.price.toRat < a.price.toRat := by
  obtain ⟨pa, qa⟩ := a
  obtain ⟨pb, qb⟩ := b
  cases pa with
  | val x =>
    cases pb with
    | val y =>
      by_cases hxy : x < y
      · simp [OrderDetails.cmp, F32.flt, F32.fgt, F32.toRat, hxy, asymm hxy]
      · by_cases hyx : y < x
        · simp [OrderDetails.cmp, F32.flt, F32.fgt, F32.toRat, hxy, hyx]
        · simp [OrderDetails.cmp, F32.flt, F32.fgt, F32.toRat, hxy, hyx]
    | nan => simp [F32.isNum] at hb
  | nan => simp [F32.isNum] at ha

/-- `Reverse` comparator, `Less` case, on numeric prices. -/
lemma revCmp_lt_iff (a b : OrderDetails) (ha : a.price.isNum = true)
    (hb : b.price.isNum = true) :
    revCmp a b = .lt ↔ b.price.toRat < a.price.toRat := by
  unfold revCmp
  exact cmp_lt_iff b a hb ha

/-- `Reverse` comparator, `Greater` case, on numeric prices. -/
lemma revCmp_gt_iff (a b : OrderDetails) (ha : a.price.isNum = true)
    (hb : b.price.isNum = true) :
    revCmp a b = .gt ↔ a.price.toRat < b.price.toRat := by
  unfold revCmp
  exact cmp_gt_iff b a hb ha

/-- `btInsert` preserves strict sortedness when the comparator is, on numeric
elements, an order embedding into ℚ via `key`. -/
lemma btInsert_pairwise (c : OrderDetails → OrderDetails → Ordering)
    (key : OrderDetails → ℚ)
    (hiff : ∀ a b : OrderDetails, a.price.isNum = true → b.price.isNum = true →
      (c a b = .lt ↔ key a < key b))
    (hgt : ∀ a b : OrderDetails, a.price.isNum = true → b.price.isNum = true →
      c a b = .gt → key b < key a)
    (x : OrderDetails) (hx : x.price.isNum = true) :
    ∀ l : List OrderDetails, (∀ y ∈ l, y.price.isNum = true) →
      l.Pairwise (fun a b => c a b = .lt) →
      (btInsert c x l).Pairwise (fun a b => c a b = .lt) := by
  intro l
  induction l with
  | nil =>
    intro _ _
    simp [btInsert]
  | cons y ys ih =>
    intro hl hp
    have hy : y.price.isNum = true := hl y (List.mem_cons_self y ys)
    have hys : ∀ z ∈ ys, z.price.isNum = true :=
      fun z hz => hl z (List.mem_cons_of_mem y hz)
    rcases List.pairwise_cons.mp hp with ⟨hyall, hpys⟩
    cases hc : c x y with
    | lt =>
      simp only [btInsert, hc]
      refine List.pairwise_cons.mpr ⟨?_, hp⟩
      intro z hz
      rcases List.mem_cons.mp hz with rfl | hzys
      · exact hc
      · have h1 : key x < key y := (hiff x y hx hy).mp hc
        have h2 : key y < key z := (hiff y z hy (hys z hzys)).mp (hyall z hzys)
        exact (hiff x z hx (hys z hzys)).mpr (h1.trans h2)
    | eq =>
      simp only [btInsert, hc]
      exact hp
    | gt =>
      simp only [btInsert, hc]
      refine List.pairwise_cons.mpr ⟨?_, ih hys hpys⟩
      intro z hz
      rcases btInsert_mem c x ys z hz with hzx | hzys
      · rw [hzx]
        exact (hiff y x hy hx).mpr (hgt x y hx hy hc)
      · exact hyall z hzys

/-- `a < b` is false (IEEE) when both are numeric and `b ≤ a`. -/
lemma flt_false_of_ge (a b : F32) (ha : a.isNum = true) (hb : b.isNum = true)
    (h : b.toRat ≤ a.toRat) : a.flt b = false := by
  cases a with
  | val x =>
    cases b with
    | val y =>
      simp only [F32.flt, decide_eq_false_iff_not]
      exact not_lt.mpr (by simpa [F32.toRat] using h)
    | nan => simp [F32.isNum] at hb
  | nan => simp [F32.isNum] at ha

/-- A numeric quantity that is nonnegative and fails the `== 0.0` test is
strictly positive. -/
lemma qty_pos_of_feq_false (x : F32) (hnum : x.isNum = true)
    (hne : x.feq (F32.val 0) = false) (hnn : 0 ≤ x.toRat) : 0 < x.toRat := by
  cases x with
  | val q =>
    have hq : ¬ (q = 0) := by simpa [F32.feq] using hne
    have hle : (0 : ℚ) ≤ q := by simpa [F32.toRat] using hnn
    simpa [F32.toRat] using lt_of_le_of_ne hle (Ne.symm hq)
  | nan => simp [F32.isNum] at hnum

/-- One `order_book_process` update step preserves the book invariant, for a
well-formed incoming order. -/
lemma applyOrder_wf (bk : Book) (o : Order) (ho : goodOrder o)
    (hwf : BookWF bk) : BookWF (applyOrder bk o) := by
  obtain ⟨hpb, hpa, hgb, hga⟩ := hwf
  cases o with
  | bid d =>
    obtain ⟨hdp, hdq, hdq0⟩ := ho
    cases hq : d.quantity.feq (F32.val 0) with
    | true =>
      have hsub := btRemove_sublist revCmp d bk.bids
      have hred : applyOrder bk (Order.bid d)
          = { bk with bids := btRemove revCmp d bk.bids } := by
        simp [applyOrder, hq]
      rw [hred]
      exact ⟨List.Pairwise.sublist hsub hpb, hpa,
        fun y hy => hgb y (hsub.subset hy), hga⟩
    | false =>
      have hred : applyOrder bk (Order.bid d)
          = { bk with bids := btInsert revCmp d bk.bids } := by
        simp [applyOrder, hq]
      rw [hred]
      refine ⟨?_, hpa, ?_, hga⟩
      · exact btInsert_pairwise revCmp (fun e => -(e.price.toRat))
          (fun a b ha hb => by rw [revCmp_lt_iff a b ha hb, neg_lt_neg_iff])
          (fun a b ha hb hab => neg_lt_neg ((revCmp_gt_iff a b ha hb).mp hab))
          d hdp bk.bids (fun y hy => (hgb y hy).1) hpb
      · intro y hy
        rcases btInsert_mem revCmp d bk.bids y hy with hyd | hmem
        · rw [hyd]
          exact ⟨hdp, hdq, qty_pos_of_feq_false d.quantity hdq hq hdq0⟩
        · exact hgb y hmem
  | ask d =>
    obtain ⟨hdp, hdq, hdq0⟩ := ho
    cases hq : d.quantity.feq (F32.val 0) with
    | true =>
      have hsub := btRemove_sublist OrderDetails.cmp d bk.asks
      have hred : applyOrder bk (Order.ask d)
          = { bk with asks := btRemove OrderDetails.cmp d bk.asks } := by
        simp [applyOrder, hq]
      rw [hred]
      exact ⟨hpb, List.Pairwise.sublist hsub hpa, hgb,
        fun y hy => hga y (hsub.subset hy)⟩
    | false =>
      have hred : applyOrder bk (Order.ask d)
          = { bk with asks := btInsert OrderDetails.cmp d bk.asks } := by
        simp [applyOrder, hq]
      rw [hred]
      refine ⟨hpb, ?_, hgb, ?_⟩
      · exact btInsert_pairwise OrderDetails.cmp (fun e => e.price.toRat)
          (fun a b ha hb => cmp_lt_iff a b ha hb)
          (fun a b ha hb hab => (cmp_gt_iff a b ha hb).mp hab)
          d hdp bk.asks (fun y hy => (hga y hy).1) hpa
      · intro y hy
        rcases btInsert_mem OrderDetails.cmp d bk.asks y hy with hyd | hmem
        · rw [hyd]
          exact ⟨hdp, hdq, qty_pos_of_feq_false d.quantity hdq hq hdq0⟩
        · exact hga y hmem

/-- Folding well-formed orders preserves the book invariant. -/
lemma foldl_wf (ops : List Order) :
    ∀ bk : Book, BookWF bk → (∀ o ∈ ops, goodOrder o) →
      BookWF (ops.foldl applyOrder bk) := by
  induction ops with
  | nil =>
    intro bk h _
    exact h
  | cons o rest ih =>
    intro bk hbk hops
    exact ih (applyOrder bk o)
      (applyOrder_wf bk o (hops o (List.mem_cons_self _ _)) hbk)
      (fun o' ho' => hops o' (List.mem_cons_of_mem _ ho'))

/-- Processing a well-formed order sequence from the empty book yields a
well-formed book. -/
lemma runOps_wf (ops : List Order) (hops : ∀ o ∈ ops, goodOrder o) :
    BookWF (runOps ops) :=
  foldl_wf ops emptyBook
    ⟨List.Pairwise.nil, List.Pairwise.nil, by simp [emptyBook], by simp [emptyBook]⟩
    hops

/-- The head of a strictly sorted list is its minimum under the comparator. -/
lemma head_min (c : OrderDetails → OrderDetails → Ordering) (l : List OrderDetails)
    (hp : l.Pairwise (fun a b => c a b = .lt)) (x : OrderDetails)
    (hx : l.head? = some x) :
    x ∈ l ∧ ∀ y ∈ l, y = x ∨ c x y = .lt := by
  cases l with
  | nil => cases hx
  | cons h0 rest =>
    have hx0 : h0 = x := by simpa using hx
    subst hx0
    refine ⟨List.mem_cons_self _ _, ?_⟩
    intro y hy
    rcases List.mem_cons.mp hy with h | h
    · exact Or.inl h
    · exact Or.inr ((List.pairwise_cons.mp hp).1 y h)

/-- C2: after any sequence of well-formed upserts and removals (numeric
prices, numeric nonnegative quantities) applied to a fresh book,
`top_bid_ask` returns for the bid side the maximum stored price and for the
ask side the minimum stored price — the minimum under each side's ordering —
with `none` exactly when the side is empty; and every stored entry has
quantity > 0, so each side's answer is the extremum among entries with
positive quantity. -/
theorem c2_best_price (ops : List Order) (hops : ∀ o ∈ ops, goodOrder o) :
    ((topBidAsk (runOps ops)).1 = none ↔ (runOps ops).bids = [])
    ∧ ((topBidAsk (runOps ops)).2 = none ↔ (runOps ops).asks = [])
    ∧ (∀ pb, (topBidAsk (runOps ops)).1 = some pb →
        (∃ y ∈ (runOps ops).bids, y.price = pb)
        ∧ ∀ y ∈ (runOps ops).bids, F32.flt pb y.price = false)
    ∧ (∀ pa, (topBidAsk (runOps ops)).2 = some pa →
        (∃ y ∈ (runOps ops).asks, y.price = pa)
        ∧ ∀ y ∈ (runOps ops).asks, F32.flt y.price pa = false)
    ∧ (∀ y ∈ (runOps ops).bids, goodEntry y)
    ∧ (∀ y ∈ (runOps ops).asks, goodEntry y) := by
  obtain ⟨hpb, hpa, hgb, hga⟩ := runOps_wf ops hops
  refine ⟨?_, ?_, ?_, ?_, hgb, hga⟩
  · show (runOps ops).bids.head?.map (fun o => o.price) = none ↔ (runOps ops).bids = []
    rcases hbl : (runOps ops).bids with _ | ⟨h0, rest⟩ <;> simp
  · show (runOps ops).asks.head?.map (fun o => o.price) = none ↔ (runOps ops).asks = []
    rcases hal : (runOps ops).asks with _ | ⟨h0, rest⟩ <;> simp
  · intro pb hpb'
    have hpb2 : (runOps ops).bids.head?.map (fun o => o.price) = some pb := hpb'
    rcases Option.map_eq_some'.mp hpb2 with ⟨x, hx, hxp⟩
    obtain ⟨hxmem, hmin⟩ := head_min revCmp (runOps ops).bids hpb x hx
    have hxn : x.price.isNum = true := (hgb x hxmem).1
    refine ⟨⟨x, hxmem, hxp⟩, ?_⟩
    intro y hy
    have hyn : y.price.isNum = true := (hgb y hy).1
    rcases hmin y hy with hyx | hlt
    · rw [← hxp, hyx]
      exact flt_false_of_ge x.price x.price hxn hxn le_rfl
    · have hlt2 : y.price.toRat < x.price.toRat := (revCmp_lt_iff x y hxn hyn).mp hlt
      rw [← hxp]
      exact flt_false_of_ge x.price y.price hxn hyn hlt2.le
  · intro pa hpa'
    have hpa2 : (runOps ops).asks.head?.map (fun o => o.price) = some pa := hpa'
    rcases Option.map_eq_some'.mp hpa2 with ⟨x, hx, hxp⟩
    obtain ⟨hxmem, hmin⟩ := head_min OrderDetails.cmp (runOps ops).asks hpa x hx
    have hxn : x.price.isNum = true := (hga x hxmem).1
    refine ⟨⟨x, hxmem, hxp⟩, ?_⟩
    intro y hy
    have hyn : y.price.isNum = true := (hga y hy).1
    rcases hmin y hy with hyx | hlt
    · rw [← hxp, hyx]
      exact flt_false_of_ge x.price x.price hxn hxn le_rfl
    · have hlt2 : x.price.toRat < y.price.toRat := (cmp_lt_iff x y hxn hyn).mp hlt
      rw [← hxp]
      exact flt_false_of_ge y.price x.price hyn hxn hlt2.le

/-- Witness for C2: after bid (10, 5), ask (11, 3), bid (9, 2), the reported
best bid 10 is a stored price and no stored bid exceeds it. -/
theorem c2_best_price_witness :
    (∃ y ∈ (runOps [Order.bid ⟨F32.val 10, F32.val 5⟩,
        Order.ask ⟨F32.val 11, F32.val 3⟩,
        Order.bid ⟨F32.val 9, F32.val 2⟩]).bids, y.price = F32.val 10)
    ∧ ∀ y ∈ (runOps [Order.bid ⟨F32.val 10, F32.val 5⟩,
        Order.ask ⟨F32.val 11, F32.val 3⟩,
        Order.bid ⟨F32.val 9, F32.val 2⟩]).bids,
        F32.flt (F32.val 10) y.price = false :=
  (c2_best_price [Order.bid ⟨F32.val 10, F32.val 5⟩,
      Order.ask ⟨F32.val 11, F32.val 3⟩,
      Order.bid ⟨F32.val 9, F32.val 2⟩] (by decide)).2.2.1 (F32.val 10) (by decide)
